import Mathlib

/-!
Verification of the core orchestration layer of the PGC molecular-graph
generative model (`models/pgc_marg.py` and `models/molspn_zero.py`).

The development shallowly embeds the tensor programs of the two model
classes: node-label vectors become functions `Nat → ℤ`, the symmetric
edge matrix becomes `Nat → Nat → ℤ`, the strictly-lower-triangular
flattening `a[:, m]` becomes a list in row-major scan order, the
per-component circuit scores are abstract real-valued functions of the
marginalization mask and the values, and the in-place tensor mutations
are made explicit by returning the post-call buffer contents.
-/

namespace PGC

/-! ### Triangular codec

`self.m = torch.tril(torch.ones(nd_x, nd_x, dtype=torch.bool), diagonal=-1)`
is the fixed strictly-lower-triangular boolean mask.  Boolean mask
indexing `a[:, m]` enumerates the `True` positions of `m` in row-major
scan order, i.e. the pairs `(i, j)` with `j < i < N` ordered
lexicographically by `(i, j)`. -/

/-- Number of strictly-lower-triangular positions among the first `n` rows:
the row-major scan index of the first mask position of row `n`. -/
def triNum : Nat → Nat
  | 0 => 0
  | n + 1 => triNum n + n

/-- The `True` positions of the strictly-lower-triangular mask of an
`N×N` matrix, in the row-major scan order used by boolean mask indexing. -/
def lowerTriPairs : Nat → List (Nat × Nat)
  | 0 => []
  | n + 1 => lowerTriPairs n ++ (List.range n).map (fun j => (n, j))

/-- `a[:, m]` for one example: the values of `a` at the mask positions,
in row-major scan order. -/
def flattenTril (N : Nat) (a : Nat → Nat → α) : List α :=
  (lowerTriPairs N).map (fun p => a p.1 p.2)

/-- The inverse mapping used by `_sample` (lines 103–105 of
`pgc_marg.py`): start from a matrix filled with `pad`
(`torch.zeros`, or `torch.full(..., nk_edges - 1)` in
`molspn_zero.py`), write the flat vector `l` into the mask positions
(`a[:, self.m] = l`), then mirror across the diagonal
(`a.transpose(1, 2)[:, self.m] = l`).  Position `(i, j)` with
`j < i < N` reads entry `triNum i + j` of `l`, its mirror reads the
same entry, and every other position (the diagonal and anything out of
range) keeps the fill value. -/
def unflattenTril (N : Nat) (l : List α) (pad : α) : Nat → Nat → α :=
  fun i j =>
    if j < i ∧ i < N then l.getD (triNum i + j) pad
    else if i < j ∧ j < N then l.getD (triNum j + i) pad
    else pad

/-- Row-major scan index of the strictly-lower-triangular position holding
the unordered pair `(i, j)`, `i ≠ j`. -/
def edgeScanIdx (i j : Nat) : Nat :=
  if j < i then triNum i + j else triNum j + i

/-! ### Mixture combiner: real-valued log-likelihood algebra -/

/-- `torch.logsumexp(v, dim)` over the component axis. -/
noncomputable def logsumexpFin {C : ℕ} (v : Fin C → ℝ) : ℝ :=
  Real.log (∑ c, Real.exp (v c))

/-- `torch.log_softmax(w, dim)` over the component axis. -/
noncomputable def logsoftmaxFin {C : ℕ} (w : Fin C → ℝ) : Fin C → ℝ :=
  fun c => w c - logsumexpFin w

/-- `torch.softmax(v, dim)` over the component axis. -/
noncomputable def softmaxFin {C : ℕ} (v : Fin C → ℝ) : Fin C → ℝ :=
  fun c => Real.exp (v c) / ∑ j, Real.exp (v j)

/-- `torch.distributions.Categorical(logits=logits).log_prob(n)` for a
length-`N` logit vector: `log_softmax(logits)[n]`.  Modelled for indices
`0 ≤ n < N`, the range on which torch's index lookup is defined. -/
noncomputable def categoricalLogProb (N : ℕ) (logits : Nat → ℝ) (n : ℤ) : ℝ :=
  logits n.toNat - Real.log (∑ i ∈ Finset.range N, Real.exp (logits i))

/-- `torch.distributions.Categorical(logits=v)` normalizes the logits with
a softmax: its sampling probabilities are `softmax(v)`. -/
noncomputable def categoricalProbs {C : ℕ} (logits : Fin C → ℝ) : Fin C → ℝ :=
  softmaxFin logits

/-! ### `PGCMargSort.forward` / `logpdf` (pgc_marg.py lines 36–54)

One example is a node vector `x : Nat → ℤ` (entries `0 ≤ i < N` are
meaningful) and an edge matrix `a : Nat → Nat → ℤ`.  The two circuits are
abstract score functions of the marginalization mask and the values:
`network.set_marginalization_mask(m)` followed by `network(v)` is the
application `net m v`, giving one log-likelihood per mixture component. -/

/-- Effect of the in-place `x -= 1` (line 37) on the caller's tensor:
after the call the buffer holds the decremented values, which are also
exactly the values handed to the node circuit. -/
def pgcShift (x : Nat → ℤ) : Nat → ℤ := fun i => x i - 1

/-- `mask_xn = (x > -1)` (line 38), computed after the in-place shift. -/
def pgcMaskXn (x : Nat → ℤ) : Nat → Bool := fun i => decide (-1 < pgcShift x i)

/-- `mask_an = (mask_xn.unsqueeze(2) * mask_xn.unsqueeze(1))[:, self.m]`
(line 39): outer product of the node presence mask with itself, read out
at the strictly-lower-triangular positions in scan order. -/
def pgcMaskAn (N : ℕ) (x : Nat → ℤ) : List Bool :=
  flattenTril N (fun i j => pgcMaskXn x i && pgcMaskXn x j)

/-- `n = mask_xn.sum(dim=1) - 1` (line 43), as the integer value torch
computes (number of `True` entries of the presence mask, minus one). -/
def pgcN (N : ℕ) (x : Nat → ℤ) : ℤ :=
  (((Finset.range N).filter (fun i => pgcMaskXn x i = true)).card : ℤ) - 1

/-- Per-example log-density of `PGCMargSort.forward` (lines 36–51):
`logs_c + logsumexp(logs_x + logs_a + logs_w, dim=1)`. -/
noncomputable def pgcForward {C : ℕ}
    (netX : (Nat → Bool) → (Nat → ℤ) → Fin C → ℝ)
    (netA : List Bool → List ℤ → Fin C → ℝ)
    (N : ℕ) (logitsN : Nat → ℝ) (w : Fin C → ℝ)
    (x : Nat → ℤ) (a : Nat → Nat → ℤ) : ℝ :=
  categoricalLogProb N logitsN (pgcN N x)
    + logsumexpFin (fun c =>
        netX (pgcMaskXn x) (pgcShift x) c
          + netA (pgcMaskAn N x) (flattenTril N a) c
          + logsoftmaxFin w c)

/-- `PGCMargSort.logpdf` (lines 53–54): the mean of the per-example
log-densities over a batch of `B` examples. -/
noncomputable def pgcLogpdf {B C : ℕ}
    (netX : (Nat → Bool) → (Nat → ℤ) → Fin C → ℝ)
    (netA : List Bool → List ℤ → Fin C → ℝ)
    (N : ℕ) (logitsN : Nat → ℝ) (w : Fin C → ℝ)
    (xs : Fin B → Nat → ℤ) (aa : Fin B → Nat → Nat → ℤ) : ℝ :=
  (∑ b, pgcForward netX netA N logitsN w (xs b) (aa b)) / B

/-- `logpdf` together with its frame effect: the scalar value, paired with
the contents of the caller's node tensor after the call (the in-place
`x -= 1` of line 37 is never undone). -/
noncomputable def pgcLogpdfRun {B C : ℕ}
    (netX : (Nat → Bool) → (Nat → ℤ) → Fin C → ℝ)
    (netA : List Bool → List ℤ → Fin C → ℝ)
    (N : ℕ) (logitsN : Nat → ℝ) (w : Fin C → ℝ)
    (xs : Fin B → Nat → ℤ) (aa : Fin B → Nat → Nat → ℤ) :
    ℝ × (Fin B → Nat → ℤ) :=
  (pgcLogpdf netX netA N logitsN w xs aa, fun b => pgcShift (xs b))

/-- Number of non-padding entries among the first `N` node labels, in the
caller's encoding where the padding sentinel is `0`. -/
def countNonPad (N : ℕ) (x : Nat → ℤ) : ℕ :=
  ((Finset.range N).filter (fun i => x i ≠ 0)).card

/-- Follows the spec's words (§4.4, size-prior mixture): `logpdf =
logprob(n) + logsumexp_c(score_node[c] + score_edge[c] + logsoftmax(w)[c])`
where `n` is the count of non-padding node entries minus one, scored under
the categorical node-count distribution, added outside the log-sum-exp. -/
noncomputable def specSizePriorLogDensity {C : ℕ}
    (netX : (Nat → Bool) → (Nat → ℤ) → Fin C → ℝ)
    (netA : List Bool → List ℤ → Fin C → ℝ)
    (N : ℕ) (logitsN : Nat → ℝ) (w : Fin C → ℝ)
    (x : Nat → ℤ) (a : Nat → Nat → ℤ) : ℝ :=
  categoricalLogProb N logitsN ((countNonPad N x : ℤ) - 1)
    + logsumexpFin (fun c =>
        netX (pgcMaskXn x) (pgcShift x) c
          + netA (pgcMaskAn N x) (flattenTril N a) c
          + logsoftmaxFin w c)

/-! ### `PGCMargSort._sample` (pgc_marg.py lines 56–109) -/

/-- Frame effect of `cond_x -= 1` (line 65): the caller's node-evidence
tensor holds the decremented values after the call; nothing restores it. -/
def sampleCondXBuffer (condX : Nat → ℤ) : Nat → ℤ := pgcShift condX

/-- `mask_x = (cond_x > -1)` (line 66), computed after the in-place shift:
a node position is evidence iff its original entry exceeds `0`. -/
def sampleMaskX (condX : Nat → ℤ) : Nat → Bool :=
  fun i => decide (-1 < pgcShift condX i)

/-- `mask_a = (cond_a > -1)[:, self.m]` (lines 77–78): the edge-evidence
mask at the triangular positions in scan order. -/
def sampleMaskA (N : ℕ) (condA : Nat → Nat → ℤ) : List Bool :=
  flattenTril N (fun i j => decide (-1 < condA i j))

/-- `logs_w = logs_x + logs_a + self.logits_w.unsqueeze(0)` (line 87): the
per-component log-weights handed to `Categorical`, with the raw learned
logits (not `log_softmax(logits_w)`). -/
def sampleLogsW {C : ℕ} (logsX logsA w : Fin C → ℝ) : Fin C → ℝ :=
  fun c => logsX c + logsA c + w c

/-- `mask_xn = arange(nd_x) <= samp_n` (line 92): node positions within
the sampled size. -/
def sampleMaskXn (sampN : ℕ) : Nat → Bool := fun i => decide (i ≤ sampN)

/-- `mask_an = (mask_xn.unsqueeze(2) * mask_xn.unsqueeze(1))[:, self.m]`
(line 93): triangular edge positions whose two endpoints are both within
the sampled size. -/
def sampleMaskAn (N sampN : ℕ) : List Bool :=
  flattenTril N (fun i j => sampleMaskXn sampN i && sampleMaskXn sampN j)

/-- Node output of `_sample` for one example (lines 94, 97, 100, 107):
the circuit sample `xRaw` (in the shifted encoding) is kept at positions
where `mask_xx = mask_x + mask_xn` holds, every other position is
overwritten with `-1`, and finally `x += 1` returns to the caller's
encoding. -/
def sampleNodeOut (maskX : Nat → Bool) (sampN : ℕ) (xRaw : Nat → ℤ) :
    Nat → ℤ :=
  fun i => (if maskX i || sampleMaskXn sampN i then xRaw i else -1) + 1

/-- The length-`N` node-label sequence returned for one example. -/
def sampleNodeList (N : ℕ) (maskX : Nat → Bool) (sampN : ℕ)
    (xRaw : Nat → ℤ) : List ℤ :=
  (List.range N).map (sampleNodeOut maskX sampN xRaw)

/-- Triangular edge output of `_sample` for one example (lines 95, 98,
101): the circuit's flat edge sample `lRaw` is kept where
`mask_aa = mask_a + mask_an` holds and overwritten with `0` elsewhere. -/
def sampleEdgeVec (N : ℕ) (maskA : List Bool) (sampN : ℕ)
    (lRaw : List ℤ) : List ℤ :=
  (List.range lRaw.length).map fun k =>
    if maskA.getD k false || (sampleMaskAn N sampN).getD k false then
      lRaw.getD k 0
    else 0

/-- Edge matrix returned for one example (lines 103–105): `torch.zeros`
followed by the two triangular writes, i.e. `unflattenTril` with fill
value `0`. -/
def sampleEdgeMatrix (N : ℕ) (maskA : List Bool) (sampN : ℕ)
    (lRaw : List ℤ) : Nat → Nat → ℤ :=
  unflattenTril N (sampleEdgeVec N maskA sampN lRaw) 0

/-- Batch output of `_sample`: one (node sequence, edge matrix) pair per
requested example, the per-example randomness (evidence masks, sampled
size, circuit samples) being supplied as functions of the example index.
A count of `0` yields the empty batch. -/
def pgcSampleBatch (count N : ℕ) (maskX : ℕ → Nat → Bool)
    (sampN : ℕ → ℕ) (xRaw : ℕ → Nat → ℤ) (maskA : ℕ → List Bool)
    (lRaw : ℕ → List ℤ) : List (List ℤ × (Nat → Nat → ℤ)) :=
  (List.range count).map fun b =>
    (sampleNodeList N (maskX b) (sampN b) (xRaw b),
     sampleEdgeMatrix N (maskA b) (sampN b) (lRaw b))

/-! ### `PGCMargSort.sample`: the batch chunker (pgc_marg.py lines 111–139) -/

/-- Line 130: `num_samples // chunk_size * [chunk_size] +
([num_samples % chunk_size] if num_samples % chunk_size > 0 else [])`. -/
def chunkSizes (n cs : ℕ) : List ℕ :=
  List.replicate (n / cs) cs ++ (if 0 < n % cs then [n % cs] else [])

/-- Lines 131–135: run the sampler once per chunk, threading the random
state, and concatenate the outputs in order. -/
def runChunks {σ Out : Type} (draw : ℕ → σ → List Out × σ) :
    List ℕ → σ → List Out × σ
  | [], s => ([], s)
  | n :: ns, s =>
    let p := draw n s
    let q := runChunks draw ns p.2
    (p.1 ++ q.1, q.2)

/-- Unconditional `sample(num_samples, chunk_size)` (lines 128–137):
chunked when `num_samples > chunk_size`, a single `_sample` call
otherwise.  `draw` is `_sample` as a function of the count and the
random state. -/
def pgcSampleChunked {σ Out : Type} (draw : ℕ → σ → List Out × σ)
    (n cs : ℕ) (s : σ) : List Out × σ :=
  if cs < n then runChunks draw (chunkSizes n cs) s else draw n s

/-- `torch.split` with split size `s`: consecutive pieces of `s` elements,
the last piece holding the remainder. -/
def splitSized (s : ℕ) (l : List α) : List (List α) :=
  (List.range ((l.length + s - 1) / s)).map fun i => (l.drop (i * s)).take s

/-- `Tensor.chunk(chunks)`: torch splits into the requested *number* of
chunks, each of size `⌈len / chunks⌉`. -/
def torchChunk (chunks : ℕ) (l : List α) : List (List α) :=
  splitSized ((l.length + chunks - 1) / chunks) l

/-- Conditional `sample(cond_x, cond_a, chunk_size)` (lines 116–127):
with equal-length evidence batches, chunk both with
`cond_x.chunk(chunk_size)` / `cond_a.chunk(chunk_size)` when the length
exceeds `chunk_size`, run `_sample` on each paired chunk, and concatenate;
unequal lengths raise. -/
def pgcSampleCond {Ex Out : Type} (sampler : List Ex → List Ex → List Out)
    (chunkSize : ℕ) (condX condA : List Ex) : Except String (List Out) :=
  if condX.length = condA.length then
    if chunkSize < condX.length then
      .ok (((torchChunk chunkSize condX).zip (torchChunk chunkSize condA)).foldr
            (fun p acc => sampler p.1 p.2 ++ acc) [])
    else .ok (sampler condX condA)
  else .error "len(cond_x) and len(cond_a) are not equal."

/-! ### `MolSPNZeroSort` (molspn_zero.py) -/

/-- Edge matrix built by `MolSPNZeroSort.sample` in the `cat`/`bin`
regimes (lines 159–162): `torch.full((B, N, N), nk_edges - 1)` followed
by the two triangular writes of the flat sample `l`. -/
def molEdgeMatrixCatBin (N nkE : ℕ) (l : List ℤ) : Nat → Nat → ℤ :=
  unflattenTril N l ((nkE : ℤ) - 1)

/-- Leaf-family configuration chosen by the regime branch of
`MolSPNZeroCore.__init__` (lines 35–59). -/
inductive EfDist where
  | categoricalArray (K : ℕ)
  | binomialArray (N : ℕ)
  | normalArray (minVar maxVar : ℚ)
deriving DecidableEq

/-- Outcome of a Python code path: normal completion or a raised
exception. -/
inductive PyFlow (α : Type) where
  | ok (a : α)
  | raised (err : String)
deriving DecidableEq

/-- The circuit configuration the regime branch binds. -/
structure RegimeCfg where
  efDistN : EfDist
  efDistE : EfDist
  numDimN : ℕ
  numDimE : ℕ
deriving DecidableEq

/-- The regime dispatch of `MolSPNZeroCore.__init__` (lines 35–59).  The
final `else` arm executes `os.error('Unsupported regime.')`: `os.error`
is the `OSError` class, so the call constructs an exception object and
discards it — nothing is raised, the branch completes normally, and
`ef_dist_n`/`ef_args_n` are left unbound (`none`). -/
def regimeBranch (nkN nkE : ℕ) (regime : String) : PyFlow (Option RegimeCfg) :=
  if regime = "cat" then
    .ok (some ⟨.categoricalArray nkN, .categoricalArray nkE, 1, 1⟩)
  else if regime = "bin" then
    .ok (some ⟨.binomialArray (nkN - 1), .binomialArray (nkE - 1), 1, 1⟩)
  else if regime = "deq" then
    .ok (some ⟨.normalArray (1/1000) (1/10), .normalArray (1/1000) (1/10), nkN, nkE⟩)
  else
    .ok none

/-- Continuation of `__init__` past the regime branch: line 67 reads
`ef_dist_n` to build the `EinsumNetwork.Args`, so when the branch bound
nothing the constructor fails there with an `UnboundLocalError` — not
with the `OSError` the branch meant to raise, and not at the regime
inspection itself. -/
def molSPNZeroCoreInitCfg (nkN nkE : ℕ) (regime : String) : PyFlow RegimeCfg :=
  match regimeBranch nkN nkE regime with
  | .ok (some cfg) => .ok cfg
  | .ok none => .raised "UnboundLocalError: ef_dist_n"
  | .raised e => .raised e

/-! ### Concrete inputs used by witnesses and counterexamples -/

/-- The spec's concrete N=4 symmetric edge matrix
`[[0,1,2,3],[1,0,4,5],[2,4,0,6],[3,5,6,0]]`. -/
def exampleA4 : Nat → Nat → ℤ :=
  fun i j => (([[0,1,2,3],[1,0,4,5],[2,4,0,6],[3,5,6,0]] :
    List (List ℤ)).getD i []).getD j 0

/-- The 2×2 identity matrix: symmetric, with a diagonal that the
triangular codec does not represent. -/
def cexDiagA : Nat → Nat → ℤ := fun i j => if i = j then 1 else 0

/-- Node evidence for the `_sample` counterexample: position 2 observed
with label 5, positions 0 and 1 unknown (sentinel 0). -/
def cexCondX : Nat → ℤ := fun i => if i = 2 then 5 else 0

/-- A node sample the circuit can return for that evidence (shifted
encoding): the evidence value `5 - 1 = 4` copied through at position 2. -/
def cexXRaw : Nat → ℤ := fun i => if i = 2 then 4 else 7

theorem length_lowerTriPairs (N : Nat) : (lowerTriPairs N).length = triNum N := by
  induction N with
  | zero => rfl
  | succ n ih => simp [lowerTriPairs, triNum, ih]

theorem triNum_mono {i n : Nat} (h : i ≤ n) : triNum i ≤ triNum n := by
  induction n with
  | zero =>
    have hz : i = 0 := Nat.le_zero.mp h
    subst hz; exact le_refl _
  | succ n ih =>
    rcases Nat.lt_or_ge i (n + 1) with h' | h'
    · exact le_trans (ih (by omega)) (by simp [triNum])
    · have : i = n + 1 := by omega
      subst this; exact le_refl _

theorem getElem?_lowerTriPairs {N i j : Nat} (hj : j < i) (hi : i < N) :
    (lowerTriPairs N)[triNum i + j]? = some (i, j) := by
  induction N with
  | zero => omega
  | succ n ih =>
    rcases Nat.lt_or_ge i n with h' | h'
    · have hlt : triNum i + j < (lowerTriPairs n).length := by
        rw [length_lowerTriPairs]
        have h1 : triNum i + j < triNum (i + 1) := by simp [triNum]; omega
        exact lt_of_lt_of_le h1 (triNum_mono h')
      rw [lowerTriPairs, List.getElem?_append_left hlt]
      exact ih h'
    · have hin : i = n := by omega
      subst hin
      have hidx : triNum i + j = (lowerTriPairs i).length + j := by
        rw [length_lowerTriPairs]
      rw [lowerTriPairs, hidx, List.getElem?_append_right (Nat.le_add_right _ _)]
      simp [List.getElem?_map, List.getElem?_range (by omega : j < i)]

theorem flattenTril_getD {N i j : Nat} (a : Nat → Nat → α) (pad : α)
    (hj : j < i) (hi : i < N) :
    (flattenTril N a).getD (triNum i + j) pad = a i j := by
  have h := getElem?_lowerTriPairs (N := N) hj hi
  simp [flattenTril, List.getD, List.getElem?_map, h]

theorem unflattenTril_symm (N : Nat) (l : List α) (pad : α) (i j : Nat) :
    unflattenTril N l pad i j = unflattenTril N l pad j i := by
  unfold unflattenTril
  rcases Nat.lt_trichotomy i j with h | h | h
  · rcases Nat.lt_or_ge j N with hN | hN <;>
      simp [h, hN, Nat.lt_asymm h, fun hh : j < N => lt_trans h hh]
  · subst h; rfl
  · rcases Nat.lt_or_ge i N with hN | hN <;>
      simp [h, hN, Nat.lt_asymm h, fun hh : i < N => lt_trans h hh]

theorem unflattenTril_diag (N : Nat) (l : List α) (pad : α) (i : Nat) :
    unflattenTril N l pad i i = pad := by
  simp [unflattenTril]

theorem unflattenTril_flattenTril_offdiag {N : Nat} (a : Nat → Nat → α) (pad : α)
    (hsym : ∀ i < N, ∀ j < N, a i j = a j i) :
    ∀ i < N, ∀ j < N, i ≠ j →
      unflattenTril N (flattenTril N a) pad i j = a i j := by
  intro i hi j hj hne
  unfold unflattenTril
  rcases Nat.lt_trichotomy i j with h | h | h
  · rw [if_neg (by omega), if_pos ⟨h, hj⟩, flattenTril_getD a pad h hj]
    exact hsym j hj i hi
  · exact absurd h hne
  · rw [if_pos ⟨h, hi⟩, flattenTril_getD a pad h hi]

theorem unflattenTril_flattenTril {N : Nat} (a : Nat → Nat → α) (pad : α)
    (hsym : ∀ i < N, ∀ j < N, a i j = a j i)
    (hdiag : ∀ i < N, a i i = pad) :
    ∀ i < N, ∀ j < N, unflattenTril N (flattenTril N a) pad i j = a i j := by
  intro i hi j hj
  rcases eq_or_ne i j with h | h
  · subst h
    rw [unflattenTril_diag]
    exact (hdiag i hi).symm
  · exact unflattenTril_flattenTril_offdiag a pad hsym i hi j hj h

theorem getD_map_range (n : ℕ) (f : ℕ → α) (k : ℕ) (d : α) :
    ((List.range n).map f).getD k d = if k < n then f k else d := by
  rcases Nat.lt_or_ge k n with h | h
  · simp [List.getD, List.getElem?_map, List.getElem?_range h, h]
  · have hlen : ((List.range n).map f).length ≤ k := by simpa using h
    rw [List.getD, List.get?_eq_getElem?, List.getElem?_eq_none hlen,
      if_neg (by omega)]
    rfl

theorem getD_replicate_self (n k : ℕ) (b : α) :
    (List.replicate n b).getD k b = b := by
  rcases Nat.lt_or_ge k n with h | h
  · simp [List.getD, List.getElem?_replicate, h]
  · rw [List.getD, List.get?_eq_getElem?, List.getElem?_eq_none (by simpa using h)]
    rfl

/-- A triangular edge position whose pair has an endpoint beyond the
sampled size, and which is not edge evidence, is overwritten with the
no-bond label `0` in the output matrix. -/
theorem sampleEdgeMatrix_beyond {N : ℕ} (maskA : List Bool) (sampN : ℕ)
    (lRaw : List ℤ) {i j : ℕ} (hj : j < i) (hi : i < N)
    (hbeyond : sampN < i ∨ sampN < j)
    (hev : maskA.getD (triNum i + j) false = false) :
    sampleEdgeMatrix N maskA sampN lRaw i j = 0 := by
  have hsampi : sampN < i := by
    rcases hbeyond with h | h
    · exact h
    · exact lt_trans h hj
  unfold sampleEdgeMatrix unflattenTril
  rw [if_pos ⟨hj, hi⟩]
  unfold sampleEdgeVec
  rw [getD_map_range]
  split
  · have hmaskan : (sampleMaskAn N sampN).getD (triNum i + j) false =
        (sampleMaskXn sampN i && sampleMaskXn sampN j) := by
      unfold sampleMaskAn
      exact flattenTril_getD _ _ hj hi
    have hxn : sampleMaskXn sampN i = false := by
      simp [sampleMaskXn]
      omega
    rw [hev, hmaskan, hxn]
    simp
  · rfl

/-! ### Claims -/

/-- C2 counterexample: the round-trip claim fails as stated.  The 2×2
identity matrix is symmetric, yet unflattening its flattened triangular
vector with pad 0 does not reproduce it: the diagonal entry (0,0) is
restored as the pad value 0, not 1. -/
theorem C2_roundtrip_counterexample :
    (∀ i < 2, ∀ j < 2, cexDiagA i j = cexDiagA j i) ∧
    ¬ (∀ i < 2, ∀ j < 2,
        unflattenTril 2 (flattenTril 2 cexDiagA) 0 i j = cexDiagA i j) := by
  decide

/-- C2 (amended): for every symmetric N×N matrix whose diagonal entries
all equal the pad value, flattening at the strictly-lower-triangular
positions in row-major order and unflattening (fill with pad, write mask
positions, mirror) reproduces the matrix exactly; off-diagonal entries
are reproduced from symmetry alone; and on the spec's concrete N=4
matrix the flattened vector is [1,2,4,3,5,6], whose unflattening with
pad 0 reproduces the matrix. -/
theorem C2_roundtrip_amended {N : ℕ} (a : Nat → Nat → ℤ) (pad : ℤ)
    (hsym : ∀ i < N, ∀ j < N, a i j = a j i)
    (hdiag : ∀ i < N, a i i = pad) :
    (∀ i < N, ∀ j < N, unflattenTril N (flattenTril N a) pad i j = a i j) ∧
    flattenTril 4 exampleA4 = [1, 2, 4, 3, 5, 6] ∧
    (∀ i < 4, ∀ j < 4, unflattenTril 4 [1, 2, 4, 3, 5, 6] 0 i j = exampleA4 i j) :=
  ⟨unflattenTril_flattenTril a pad hsym hdiag, by decide, by decide⟩

/-- C2 witness: the amended round-trip law evaluated on the spec's
concrete N=4 matrix, whose diagonal is 0 = pad. -/
theorem C2_roundtrip_amended_witness :
    (∀ i < 4, ∀ j < 4,
      unflattenTril 4 (flattenTril 4 exampleA4) 0 i j = exampleA4 i j) ∧
    flattenTril 4 exampleA4 = [1, 2, 4, 3, 5, 6] :=
  ⟨(C2_roundtrip_amended (N := 4) exampleA4 0 (by decide) (by decide)).1,
   (C2_roundtrip_amended (N := 4) exampleA4 0 (by decide) (by decide)).2.1⟩

/-- C8: in `forward`, the triangular edge marginalization mask is the
outer product of the node presence mask with itself read at the mask
positions, so the scan-order entry for the pair (i, j) is observed iff
both endpoint node entries are non-padding (for node labels, which are
nonnegative, not-padding means greater than 0). -/
theorem C8_edge_mask_derived {N : ℕ} (x : Nat → ℤ) {i j : ℕ}
    (hj : j < i) (hi : i < N) (hx : ∀ k < N, 0 ≤ x k) :
    ((pgcMaskAn N x).getD (triNum i + j) false = true) ↔
      (x i ≠ 0 ∧ x j ≠ 0) := by
  have h1 := hx i hi
  have h2 := hx j (lt_trans hj hi)
  unfold pgcMaskAn
  rw [flattenTril_getD _ _ hj hi]
  simp only [Bool.and_eq_true, pgcMaskXn, pgcShift, decide_eq_true_eq]
  omega

/-- C8 witness: the derived edge mask evaluated at the pair (2, 0) of a
concrete evidence vector with node 2 present and node 0 absent. -/
theorem C8_edge_mask_derived_witness :
    ((pgcMaskAn 3 cexCondX).getD (triNum 2 + 0) false = true) ↔
      (cexCondX 2 ≠ 0 ∧ cexCondX 0 ≠ 0) :=
  C8_edge_mask_derived cexCondX (by decide) (by decide) (by decide)

/-- C9: the conditional sampler draws the per-example component from
`Categorical(logits = logs_x + logs_a + logits_w)`, whose probabilities
are the softmax of that vector; this equals the softmax of
`score_node + score_edge + logsoftmax(w)`, because replacing the raw
logits `w` by `logsoftmax(w)` shifts every component by the same
constant `logsumexp(w)` and the softmax is invariant under constant
shifts. -/
theorem C9_component_posterior {C : ℕ} (logsX logsA w : Fin C → ℝ) :
    categoricalProbs (sampleLogsW logsX logsA w) =
      softmaxFin (fun c => logsX c + logsA c + logsoftmaxFin w c) := by
  funext c
  unfold categoricalProbs softmaxFin sampleLogsW logsoftmaxFin
  have key : ∀ d : Fin C,
      Real.exp (logsX d + logsA d + (w d - logsumexpFin w)) =
        Real.exp (logsX d + logsA d + w d) * Real.exp (-(logsumexpFin w)) := by
    intro d
    rw [← Real.exp_add]
    congr 1
    ring
  simp only [key]
  rw [← Finset.sum_mul]
  exact (mul_div_mul_right _ _ (Real.exp_ne_zero _)).symm

/-- C1: the size-prior variant's per-example log-density is
`logprob(n) + logsumexp_c(score_node[c] + score_edge[c] + logsoftmax(w)[c])`
with `n` the count of non-padding node entries minus one scored under the
categorical node-count distribution and added outside the log-sum-exp,
and `logpdf` is the batch mean of these per-example log-densities.  The
hypothesis states that node labels are nonnegative, so that the presence
test `x - 1 > -1` coincides with "entry is not the padding sentinel 0". -/
theorem C1_size_prior_logpdf {B C N : ℕ}
    (netX : (Nat → Bool) → (Nat → ℤ) → Fin C → ℝ)
    (netA : List Bool → List ℤ → Fin C → ℝ)
    (logitsN : Nat → ℝ) (w : Fin C → ℝ)
    (xs : Fin B → Nat → ℤ) (aa : Fin B → Nat → Nat → ℤ)
    (hpos : ∀ b, ∀ i < N, 0 ≤ xs b i) :
    pgcLogpdf netX netA N logitsN w xs aa =
      (∑ b, specSizePriorLogDensity netX netA N logitsN w (xs b) (aa b)) / B := by
  unfold pgcLogpdf
  congr 1
  refine Finset.sum_congr rfl fun b _ => ?_
  have hset : (Finset.range N).filter (fun i => pgcMaskXn (xs b) i = true) =
      (Finset.range N).filter (fun i => xs b i ≠ 0) := by
    refine Finset.filter_congr fun i hi => ?_
    have h0 := hpos b i (Finset.mem_range.mp hi)
    simp only [pgcMaskXn, pgcShift, decide_eq_true_eq]
    omega
  have harg : pgcN N (xs b) = (countNonPad N (xs b) : ℤ) - 1 := by
    unfold pgcN countNonPad
    rw [hset]
  unfold pgcForward specSizePriorLogDensity
  rw [harg]

/-- C1 witness: the identity applied to a concrete one-example batch. -/
theorem C1_size_prior_logpdf_witness :
    pgcLogpdf (C := 1) (fun _ _ _ => (0 : ℝ)) (fun _ _ _ => (0 : ℝ)) 3
        (fun _ => (0 : ℝ)) (fun _ => (0 : ℝ)) (fun _ : Fin 1 => cexCondX)
        (fun _ : Fin 1 => fun _ _ => (0 : ℤ)) =
      (∑ _b : Fin 1, specSizePriorLogDensity (C := 1) (fun _ _ _ => (0 : ℝ))
        (fun _ _ _ => (0 : ℝ)) 3 (fun _ => (0 : ℝ)) (fun _ => (0 : ℝ))
        cexCondX (fun _ _ => (0 : ℤ))) / ((1 : ℕ) : ℝ) :=
  C1_size_prior_logpdf (fun _ _ _ => (0 : ℝ)) (fun _ _ _ => (0 : ℝ))
    (fun _ => (0 : ℝ)) (fun _ => (0 : ℝ)) (fun _ => cexCondX)
    (fun _ => fun _ _ => (0 : ℤ)) (by decide)

/-- C10: `forward`/`logpdf` decrement the caller's node tensor in place
and never restore it, and `_sample` likewise decrements a provided node
evidence tensor in place: after a `logpdf` call the buffer holds the
original values minus one, a second call with the same buffer therefore
scores the original values minus two, and the inputs scored by the two
calls differ at every position. -/
theorem C10_inplace_decrement {B C N : ℕ}
    (netX : (Nat → Bool) → (Nat → ℤ) → Fin C → ℝ)
    (netA : List Bool → List ℤ → Fin C → ℝ)
    (logitsN : Nat → ℝ) (w : Fin C → ℝ)
    (xs : Fin B → Nat → ℤ) (aa : Fin B → Nat → Nat → ℤ) (condX : Nat → ℤ) :
    ((pgcLogpdfRun netX netA N logitsN w xs aa).2 = fun b i => xs b i - 1) ∧
    ((pgcLogpdfRun netX netA N logitsN w
        (pgcLogpdfRun netX netA N logitsN w xs aa).2 aa).2
      = fun b i => xs b i - 2) ∧
    ((pgcLogpdfRun netX netA N logitsN w
        (pgcLogpdfRun netX netA N logitsN w xs aa).2 aa).1
      = pgcLogpdf netX netA N logitsN w (fun b i => xs b i - 1) aa) ∧
    (∀ b i, pgcShift ((pgcLogpdfRun netX netA N logitsN w xs aa).2 b) i ≠
      pgcShift (xs b) i) ∧
    (sampleCondXBuffer condX = fun i => condX i - 1) := by
  refine ⟨rfl, ?_, rfl, ?_, rfl⟩
  · funext b i
    simp only [pgcLogpdfRun, pgcShift]
    ring
  · intro b i
    simp only [pgcLogpdfRun, pgcShift]
    omega

/-- C3 counterexample: the enforcement claim fails as stated for
conditional calls.  With node evidence observing position 2 (original
label 5, so the evidence mask is true there) and a sampled size index
`samp_n = 0`, the override mask `mask_xx = mask_x + mask_xn` keeps the
evidence position even though it lies beyond the sampled size, so the
returned node vector holds 5 ≠ 0 (the padding sentinel) at position 2. -/
theorem C3_size_enforcement_counterexample :
    sampleMaskX cexCondX 2 = true ∧
    (0 : ℕ) < 2 ∧
    sampleNodeOut (sampleMaskX cexCondX) 0 cexXRaw 2 = 5 ∧
    ((5 : ℤ) ≠ 0) := by
  decide

/-- C3 (amended): in the size-prior variant's sampler, every node
position beyond the sampled size that is *not* an evidence position is
forced to the padding sentinel 0, and every off-diagonal edge position
touching such a node whose triangular slot is not edge evidence is
forced to the no-bond label 0; in particular, with no evidence supplied
(unconditional sampling, all-false evidence masks) the original claim
holds for every position beyond the sampled size.  Evidence positions,
however, are preserved even beyond the sampled size. -/
theorem C3_size_enforcement_amended (N : ℕ) (maskX : Nat → Bool)
    (maskA : List Bool) (sampN : ℕ) (xRaw : Nat → ℤ) (lRaw : List ℤ) :
    (∀ i, sampN < i → maskX i = false →
      sampleNodeOut maskX sampN xRaw i = 0) ∧
    (∀ i j, i < N → j < N → i ≠ j → (sampN < i ∨ sampN < j) →
      maskA.getD (edgeScanIdx i j) false = false →
      sampleEdgeMatrix N maskA sampN lRaw i j = 0) ∧
    (∀ i, sampN < i →
      sampleNodeOut (fun _ => false) sampN xRaw i = 0) ∧
    (∀ i j, i < N → j < N → i ≠ j → (sampN < i ∨ sampN < j) →
      sampleEdgeMatrix N (List.replicate (triNum N) false) sampN lRaw i j = 0) := by
  have hnode : ∀ (m : Nat → Bool) (i : ℕ), sampN < i → m i = false →
      sampleNodeOut m sampN xRaw i = 0 := by
    intro m i hbeyond hev
    have hxn : sampleMaskXn sampN i = false := by
      simp [sampleMaskXn]
      omega
    simp [sampleNodeOut, hev, hxn]
  have hedge : ∀ (mA : List Bool) (i j : ℕ), i < N → j < N → i ≠ j →
      (sampN < i ∨ sampN < j) →
      mA.getD (edgeScanIdx i j) false = false →
      sampleEdgeMatrix N mA sampN lRaw i j = 0 := by
    intro mA i j hi hj hne hbeyond hev
    rcases Nat.lt_or_ge j i with hlt | hge
    · have heq : edgeScanIdx i j = triNum i + j := by
        simp [edgeScanIdx, hlt]
      exact sampleEdgeMatrix_beyond mA sampN lRaw hlt hi hbeyond (heq ▸ hev)
    · have hlt : i < j := by omega
      have hswap : sampleEdgeMatrix N mA sampN lRaw i j =
          sampleEdgeMatrix N mA sampN lRaw j i := by
        unfold sampleEdgeMatrix
        exact unflattenTril_symm N _ 0 i j
      rw [hswap]
      have heq : edgeScanIdx i j = triNum j + i := by
        simp [edgeScanIdx, Nat.lt_asymm hlt]
      exact sampleEdgeMatrix_beyond mA sampN lRaw hlt hj (Or.symm hbeyond)
        (heq ▸ hev)
  refine ⟨fun i h1 h2 => hnode maskX i h1 h2, hedge maskA, ?_, ?_⟩
  · intro i h1
    exact hnode (fun _ => false) i h1 rfl
  · intro i j hi hj hne hbeyond
    exact hedge _ i j hi hj hne hbeyond (getD_replicate_self _ _ _)

/-- C3 witness: with no evidence and sampled size index 0, node
position 2 is padded to 0 and the edge slot (2, 1) is forced to the
no-bond label 0. -/
theorem C3_size_enforcement_amended_witness :
    sampleNodeOut (fun _ => false) 0 cexXRaw 2 = 0 ∧
    sampleEdgeMatrix 3 (List.replicate (triNum 3) false) 0 [7, 7, 7] 2 1 = 0 :=
  ⟨(C3_size_enforcement_amended 3 (fun _ => false)
      (List.replicate (triNum 3) false) 0 cexXRaw [7, 7, 7]).2.2.1 2 (by decide),
   (C3_size_enforcement_amended 3 (fun _ => false)
      (List.replicate (triNum 3) false) 0 cexXRaw [7, 7, 7]).2.2.2 2 1
      (by decide) (by decide) (by decide) (Or.inl (by decide))⟩

/-- C5 counterexample: the plain-mixture sampler's edge matrix in the
categorical/binomial regimes is created with `torch.full(..., nk_edges - 1)`,
so with `nk_e = 2` categories its diagonal entries equal 1, not 0 — the
sampling-shape claim's "zero diagonal" fails on `MolSPNZeroSort.sample`. -/
theorem C5_sampling_shape_counterexample :
    molEdgeMatrixCatBin 2 2 [0] 0 0 = 1 ∧ ((1 : ℤ) ≠ 0) := by
  decide

/-- C5 (amended): for any count ≥ 0 the samplers return node sequences of
length N and symmetric N×N edge matrices, and a count of 0 returns an
empty batch; the unused diagonal is the fill value of the matrix the
triangular sample is written into — 0 for the size-prior variant
(`torch.zeros`), but `nk_e - 1` (not 0) for the plain variant's
categorical/binomial regimes (`torch.full`). -/
theorem C5_sampling_shape_amended (N : ℕ) (maskX : Nat → Bool)
    (maskA : List Bool) (sampN : ℕ) (xRaw : Nat → ℤ) (lRaw : List ℤ)
    (nkE : ℕ) (l : List ℤ) (count : ℕ) (maskXs : ℕ → Nat → Bool)
    (sampNs : ℕ → ℕ) (xRaws : ℕ → Nat → ℤ) (maskAs : ℕ → List Bool)
    (lRaws : ℕ → List ℤ) :
    (sampleNodeList N maskX sampN xRaw).length = N ∧
    (∀ i j, sampleEdgeMatrix N maskA sampN lRaw i j =
      sampleEdgeMatrix N maskA sampN lRaw j i) ∧
    (∀ i, sampleEdgeMatrix N maskA sampN lRaw i i = 0) ∧
    (∀ i j, molEdgeMatrixCatBin N nkE l i j = molEdgeMatrixCatBin N nkE l j i) ∧
    (∀ i, molEdgeMatrixCatBin N nkE l i i = (nkE : ℤ) - 1) ∧
    (pgcSampleBatch count N maskXs sampNs xRaws maskAs lRaws).length = count ∧
    pgcSampleBatch 0 N maskXs sampNs xRaws maskAs lRaws = [] := by
  refine ⟨by simp [sampleNodeList], ?_, ?_, ?_, ?_, by simp [pgcSampleBatch],
    by simp [pgcSampleBatch]⟩
  · intro i j
    exact unflattenTril_symm N _ 0 i j
  · intro i
    exact unflattenTril_diag N _ 0 i
  · intro i j
    exact unflattenTril_symm N _ _ i j
  · intro i
    exact unflattenTril_diag N _ _ i

/-- C4: `sample` with evidence pairs of length 5 and `chunk_size = 2`
splits via `cond_x.chunk(chunk_size)`, and `Tensor.chunk` takes the
*number* of chunks, not the chunk size: the evidence is split into
pieces of sizes [3, 2] (consecutive and order-preserving, node and edge
evidence paired), not into the claimed sizes [2, 2, 1] where every chunk
except the last has exactly `chunk_size` examples. -/
theorem C4_conditional_chunking_eval :
    (torchChunk 2 ([0, 1, 2, 3, 4] : List ℕ)).map List.length = [3, 2] ∧
    pgcSampleCond (fun xs ys => [(xs, ys)]) 2 [0, 1, 2, 3, 4] [5, 6, 7, 8, 9] =
      .ok [([0, 1, 2], [5, 6, 7]), ([3, 4], [8, 9])] ∧
    ([3, 2] : List ℕ) ≠ [2, 2, 1] :=
  ⟨rfl, rfl, by decide⟩

/-- C6: constructing a model with an unrecognized regime name does not
raise at the regime inspection: the `else` arm's `os.error('...')`
builds an `OSError` without raising it, the branch completes normally
with the leaf family unbound, and the constructor only fails later with
an `UnboundLocalError` when line 67 reads `ef_dist_n`. -/
theorem C6_regime_dispatch_eval :
    regimeBranch 5 4 "foo" = .ok none ∧
    (∀ e, regimeBranch 5 4 "foo" ≠ PyFlow.raised e) ∧
    molSPNZeroCoreInitCfg 5 4 "foo" = .raised "UnboundLocalError: ef_dist_n" := by
  have hbr : regimeBranch 5 4 "foo" = .ok none := by decide
  refine ⟨hbr, fun e h => ?_, by decide⟩
  rw [hbr] at h
  exact PyFlow.noConfusion h

/-- C7: unconditional chunked sampling partitions the request into
`num_samples / chunk_size` full chunks plus an optional remainder chunk
(whose sizes sum to the request and each equal either `chunk_size` or
the remainder), samples each chunk in turn threading the random source,
and concatenates in order; for `count = 5000`, `chunk_size = 2000` this
equals three sequential calls of sizes 2000, 2000, 1000 concatenated. -/
theorem C7_chunking_equivalence {σ Out : Type} (draw : ℕ → σ → List Out × σ)
    (s : σ) (n cs : ℕ) :
    chunkSizes 5000 2000 = [2000, 2000, 1000] ∧
    pgcSampleChunked draw 5000 2000 s =
      ((draw 2000 s).1 ++ ((draw 2000 (draw 2000 s).2).1 ++
        (draw 1000 (draw 2000 (draw 2000 s).2).2).1),
       (draw 1000 (draw 2000 (draw 2000 s).2).2).2) ∧
    (chunkSizes n cs).sum = n ∧
    (∀ k ∈ chunkSizes n cs, k = cs ∨ (0 < n % cs ∧ k = n % cs)) := by
  have hsizes : chunkSizes 5000 2000 = [2000, 2000, 1000] := by decide
  refine ⟨hsizes, ?_, ?_, ?_⟩
  · rw [pgcSampleChunked, if_pos (by omega), hsizes]
    simp [runChunks]
  · have h0 := Nat.div_add_mod n cs
    by_cases h : 0 < n % cs
    · simp only [chunkSizes, if_pos h, List.sum_append, List.sum_replicate,
        smul_eq_mul, List.sum_cons, List.sum_nil]
      rw [mul_comm]
      omega
    · have hz : n % cs = 0 := Nat.eq_zero_of_not_pos h
      simp only [chunkSizes, if_neg h, List.sum_append, List.sum_replicate,
        smul_eq_mul, List.sum_nil]
      rw [mul_comm]
      omega
  · intro k hk
    simp only [chunkSizes, List.mem_append, List.mem_replicate] at hk
    rcases hk with ⟨-, hk⟩ | hk
    · exact Or.inl hk
    · by_cases h : 0 < n % cs
      · rw [if_pos h] at hk
        simp at hk
        exact Or.inr ⟨h, hk⟩
      · rw [if_neg h] at hk
        simp at hk

end PGC
